import Mathlib

/-!
Shallow embedding of `boa_unicode/build_tables.js`.

The script parses a Unicode `PropList.txt` body with the JavaScript regex

  `(^|\n)(?<codePointStart>[0-9A-F]+)(\.\.(?<codePointEnd>[0-9A-F]+))?\s*;\s*(?<property>[^\s]+)`

under flags `g` and `i` (`String.prototype.matchAll`), then for each entry of
`TARGET_PROPERTIES` filters the records by exact property-name equality,
expands each inclusive hex range into individual code points, sorts the code
points ascending, and renders a Rust `static` declaration per property,
joined under a fixed doc-comment header.

The regex is modelled by a deterministic matcher (`matchCore`): each
quantifier in the pattern is effectively possessive because no character can
simultaneously satisfy a quantified class and the construct that follows it
(hex digits are neither `.` nor whitespace nor `;`; whitespace is neither
`;` nor a non-whitespace property character), so maximal munch plus the
explicit failure cases reproduces the backtracking engine exactly.
`matchAll` advances from the end of each match and a match can only begin at
offset 0 (the `^` alternative, no `m` flag) or at a literal newline, which
`parseRecords`/`scanAux` implement.  Machine integers: the script only ever
holds code points (small naturals), modelled as `Nat`.
-/

namespace BuildTables

/-- Character class `[0-9A-F]` under the regex `i` flag: with non-Unicode
case-insensitive canonicalisation this accepts exactly `0-9`, `A-F`, `a-f`. -/
def isHexDigit (c : Char) : Bool :=
  (48 ≤ c.toNat && c.toNat ≤ 57) || (65 ≤ c.toNat && c.toNat ≤ 70) ||
    (97 ≤ c.toNat && c.toNat ≤ 102)

/-- The JavaScript regex class `\s`: ASCII whitespace, NBSP, Ogham space mark,
the `U+2000`–`U+200A` spaces, line/paragraph separators, narrow NBSP, medium
mathematical space, ideographic space, and BOM. -/
def isJsSpace (c : Char) : Bool :=
  (9 ≤ c.toNat && c.toNat ≤ 13) || c.toNat == 32 || c.toNat == 160 ||
    c.toNat == 5760 || (8192 ≤ c.toNat && c.toNat ≤ 8202) ||
    c.toNat == 8232 || c.toNat == 8233 || c.toNat == 8239 ||
    c.toNat == 8287 || c.toNat == 12288 || c.toNat == 65279

/-- One element of `[...propListText.matchAll(dataRegex)].map(m => m.groups)`:
the three named capture groups, `codePointEnd` being `undefined` when the
`(\.\.(?<codePointEnd>[0-9A-F]+))?` group did not participate. -/
structure RawRecord where
  codePointStart : List Char
  codePointEnd : Option (List Char)
  property : List Char
deriving DecidableEq, Repr

/-- The part `\s*;\s*(?<property>[^\s]+)` of the regex, starting right after
the code-point group(s); `s` and `e` are the already-captured groups.
Returns the record and the remainder of the text after the match. -/
def matchTail (s : List Char) (e : Option (List Char)) (r : List Char) :
    Option (RawRecord × List Char) :=
  let r1 := r.dropWhile isJsSpace
  if r1.take 1 = [';'] then
    let r2 := r1.drop 1
    let r3 := r2.dropWhile isJsSpace
    let p := r3.takeWhile (fun c => !(isJsSpace c))
    if p = [] then none
    else some (⟨s, e, p⟩, r3.dropWhile (fun c => !(isJsSpace c)))
  else none

/-- Attempt of the regex body (everything after the `(^|\n)` anchor group) at
the head of `cs`.  Mirrors the engine: maximal hex run for
`codePointStart`; then the optional `\.\.(?<codePointEnd>[0-9A-F]+)` — if a
`.` follows but not `..`+hex, every backtrack fails because `.` matches
neither `\s` nor `;`; then `matchTail`. -/
def matchCore (cs : List Char) : Option (RawRecord × List Char) :=
  let s := cs.takeWhile isHexDigit
  let r1 := cs.dropWhile isHexDigit
  if s = [] then none
  else if r1.take 2 = ['.', '.'] then
    let r2 := r1.drop 2
    let e := r2.takeWhile isHexDigit
    if e = [] then none
    else matchTail s (some e) (r2.dropWhile isHexDigit)
  else if r1.take 1 = ['.'] then none
  else matchTail s none r1

/-- Scan of `matchAll` after offset 0: a further match can only start at a
literal `\n` (the `^` alternative is dead past offset 0, there is no `m`
flag).  Fuel-indexed for structural recursion; one unit of fuel per character
position, which suffices because a successful match consumes at least the
anchor newline. -/
def scanAux : Nat → List Char → List RawRecord
  | 0, _ => []
  | _ + 1, [] => []
  | fuel + 1, c :: cs =>
    if c = '\n' then
      match matchCore cs with
      | some (r, rest) => r :: scanAux fuel rest
      | none => scanAux fuel cs
    else scanAux fuel cs

/-- `scanAux` with its canonical (sufficient) fuel. -/
def scan (cs : List Char) : List RawRecord := scanAux cs.length cs

/-- `[...propListText.matchAll(dataRegex)].map(m => m.groups)`: at offset 0
the `(^|\n)` group can match `^` (empty), otherwise scanning proceeds
newline-anchored. -/
def parseRecords (cs : List Char) : List RawRecord :=
  match matchCore cs with
  | some (r, rest) => r :: scan rest
  | none => scan cs

/-- Value of one hex digit, as consumed by `parseInt(_, 16)` (case
insensitive). -/
def hexDigitVal (c : Char) : Nat :=
  if 48 ≤ c.toNat && c.toNat ≤ 57 then c.toNat - 48
  else if 65 ≤ c.toNat && c.toNat ≤ 70 then c.toNat - 55
  else if 97 ≤ c.toNat && c.toNat ≤ 102 then c.toNat - 87
  else 0

/-- `parseInt(s, 16)` on a pure hex-digit string (the only strings the script
feeds it, by construction of the capture groups). -/
def hexToNat (l : List Char) : Nat := l.foldl (fun a c => 16 * a + hexDigitVal c) 0

/-- `n` iterations of the loop body `codePoints.push(cp); cp++` starting at
`cp = s`. -/
def expandAux : Nat → Nat → List Nat
  | 0, _ => []
  | n + 1, s => s :: expandAux n (s + 1)

/-- `for (let cp = codePointStart; cp <= codePointEnd; cp++) push(cp)`:
executes `e + 1 - s` times (zero when `e < s`). -/
def expandRange (s e : Nat) : List Nat := expandAux (e + 1 - s) s

/-- `codePoints.sort((a, b) => a - b)`: ECMAScript sort with this comparator
yields the ascending reordering of the list, which is unique as a sorted
permutation; insertion sort realises it. -/
def sortCps (l : List Nat) : List Nat := List.insertionSort (· ≤ ·) l

/-- The two `.map` stages: keep the records whose `property` group equals the
target name (JS `===`, exact and case sensitive), default the missing range
end to the start (`codePointEnd ?? codePointStart`), and parse both ends in
base 16. -/
def rangesOf (data : List RawRecord) (propertyName : List Char) : List (Nat × Nat) :=
  (data.filter (fun r => r.property == propertyName)).map
    (fun r => (hexToNat r.codePointStart, hexToNat (r.codePointEnd.getD r.codePointStart)))

/-- The full per-property chain: filter, default, parse, `reduce` with the
push loop, then sort. -/
def buildCodePoints (data : List RawRecord) (propertyName : List Char) : List Nat :=
  sortCps ((rangesOf data propertyName).foldl
    (fun codePoints se => codePoints ++ expandRange se.1 se.2) [])

/-- One digit of `Number.prototype.toString(16)` (lowercase). -/
def hexChar (n : Nat) : Char :=
  if n < 10 then Char.ofNat (48 + n) else Char.ofNat (87 + n)

/-- Digit loop of `toString(16)`; fuel-indexed (fuel `n` suffices since the
value shrinks by a factor of 16 each step). -/
def toHexAux : Nat → Nat → List Char
  | 0, _ => []
  | fuel + 1, n =>
    if n = 0 then [] else toHexAux fuel (n / 16) ++ [hexChar (n % 16)]

/-- `cp.toString(16)` for a natural number. -/
def toHexString (n : Nat) : List Char := if n = 0 then ['0'] else toHexAux n n

/-- `String.prototype.padStart(n, c)`. -/
def padStart (l : List Char) (n : Nat) (c : Char) : List Char :=
  List.replicate (n - l.length) c ++ l

/-- `String.prototype.toUpperCase` restricted to the characters that ever
occur here (ASCII). -/
def charUpper (c : Char) : Char :=
  if 97 ≤ c.toNat && c.toNat ≤ 122 then Char.ofNat (c.toNat - 32) else c

/-- `cp.toString(16).padStart(4, "0").toUpperCase()`. -/
def hexPadded (cp : Nat) : List Char := (padStart (toHexString cp) 4 '0').map charUpper

/-- ASCII single quote. -/
def qc : Char := Char.ofNat 39

/-- Backslash. -/
def bsc : Char := Char.ofNat 92

/-- Left curly brace. -/
def lbc : Char := Char.ofNat 123

/-- Right curly brace. -/
def rbc : Char := Char.ofNat 125

/-- The template `'\u{...}'` built around one padded hex code point. -/
def renderCp (cp : Nat) : List Char :=
  qc :: bsc :: 'u' :: lbc :: (hexPadded cp ++ [rbc, qc])

/-- `Array.prototype.join(sep)` (empty string on the empty array). -/
def joinSep (sep : List Char) : List (List Char) → List Char
  | [] => []
  | [x] => x
  | x :: xs => x ++ sep ++ joinSep sep xs

/-- The template `` `&[${codePoints.map(...).join(",")}]` ``. -/
def rustTable (codePoints : List Nat) : List Char :=
  "&[".data ++ joinSep [','] (codePoints.map renderCp) ++ [']']

/-- The template `` `pub(crate) static ${name}: &[char] = ${table};` ``. -/
def rustVariable (rustTableName : List Char) (codePoints : List Nat) : List Char :=
  "pub(crate) static ".data ++ rustTableName ++ ": &[char] = ".data ++
    rustTable codePoints ++ [';']

/-- The `TARGET_PROPERTIES` constant: `(property to search, table name)`. -/
def TARGET_PROPERTIES : List (String × String) :=
  [("Pattern_Syntax", "PATTERN_SYNTAX"),
   ("Other_ID_Continue", "OTHER_ID_CONTINUE"),
   ("Other_ID_Start", "OTHER_ID_START"),
   ("Pattern_White_Space", "PATTERN_WHITE_SPACE")]

/-- The `OUTPUT_FILE_DOC_COMMENT` constant (already `.trim()`-ed). -/
def OUTPUT_FILE_DOC_COMMENT : String :=
  "//! This module implements the unicode lookup tables for identifier and pattern syntax.\n//! Version: Unicode 14.0.0\n//!\n//! This file is generated by `boa_unicode/build_tables.js`. Please do not modify it directly.\n//!\n//! More information:\n//!  - [Unicode® Standard Annex #44][uax44]\n//!\n//! [uax44]: http://unicode.org/reports/tr44"

/-- The content written by `buildRustFile` to `src/tables.rs` (the part of
the function before `fs.writeFileSync`/`rustfmt`):
`` `${OUTPUT_FILE_DOC_COMMENT}\n\n${rustVariables.join("\n\n")}` ``. -/
def buildRustFile (propListText : List Char) : List Char :=
  let data := parseRecords propListText
  let rustVariables := TARGET_PROPERTIES.map
    (fun pr => rustVariable pr.2.data (buildCodePoints data pr.1.data))
  OUTPUT_FILE_DOC_COMMENT.data ++ '\n' :: '\n' :: joinSep ['\n', '\n'] rustVariables

/-- The literal `..` prefix of the optional range-end group, as text. -/
def rangePart : Option (List Char) → List Char
  | none => []
  | some es => '.' :: '.' :: es

/-! Elementary facts about range expansion. -/

theorem length_expandAux (n : Nat) : ∀ s : Nat, (expandAux n s).length = n := by
  induction n with
  | zero => intro s; rfl
  | succ n ih => intro s; simp [expandAux, ih]

theorem mem_expandAux (n : Nat) : ∀ s c : Nat, c ∈ expandAux n s ↔ s ≤ c ∧ c < s + n := by
  induction n with
  | zero => intro s c; simp [expandAux]
  | succ n ih => intro s c; simp [expandAux, ih]; omega

theorem mem_expandRange (s e c : Nat) : c ∈ expandRange s e ↔ s ≤ c ∧ c ≤ e := by
  unfold expandRange; rw [mem_expandAux]; omega

/-- Claim C1: on the input text `"0041..0043 ; Foo\n0050 ; Foo\n"` with the
single target spec `(Foo, FOO_TABLE)`, the parse-filter-expand-sort stages
produce the code-point table `[0x41, 0x42, 0x43, 0x50]`. -/
theorem c1_end_to_end :
    buildCodePoints (parseRecords "0041..0043 ; Foo\n0050 ; Foo\n".data) "Foo".data
      = [0x41, 0x42, 0x43, 0x50] := by decide

/-- Claim C2, counterexample: the text `"0003..0001 ; Foo\n"` parses to a
PropertyRecord with `codePointStart = 3` and `codePointEnd = 1`, whose
expansion has 0 code points, not `e - s + 1 = -1`. -/
theorem c2_counterexample :
    parseRecords "0003..0001 ; Foo\n".data
        = [⟨"0003".data, some "0001".data, "Foo".data⟩]
      ∧ hexToNat "0003".data = 3 ∧ hexToNat "0001".data = 1
      ∧ expandRange 3 1 = []
      ∧ ¬ (((expandRange 3 1).length : Int) = (1 : Int) - (3 : Int) + 1) := by decide

/-- Claim C2, amended: for every parsed PropertyRecord whose bounds satisfy
`s ≤ e`, range expansion produces exactly `e - s + 1` code points, namely
every integer in the inclusive interval `[s, e]` (when `e < s` it produces
none, see the C10 theorem). -/
theorem c2_expansion_amended (s e : Nat) (h : s ≤ e) :
    (expandRange s e).length = e - s + 1
      ∧ ∀ c : Nat, c ∈ expandRange s e ↔ s ≤ c ∧ c ≤ e := by
  constructor
  · unfold expandRange; rw [length_expandAux]; omega
  · intro c; exact mem_expandRange s e c

/-- Witness for the amended C2 at `s = 2`, `e = 5`. -/
theorem c2_expansion_amended_witness :
    (2 : Nat) ≤ 5 ∧ ((expandRange 2 5).length = 5 - 2 + 1
      ∧ ∀ c : Nat, c ∈ expandRange 2 5 ↔ 2 ≤ c ∧ c ≤ 5) :=
  ⟨by decide, c2_expansion_amended 2 5 (by decide)⟩

/-- Claim C4, counterexample: a line with leading whitespace is not parsed at
all — the regex anchors records at `^` or a literal newline — whereas the
un-decorated line parses to one record. -/
theorem c4_counterexample :
    parseRecords "  0041 ; Foo".data = []
      ∧ parseRecords "0041 ; Foo".data = [⟨"0041".data, none, "Foo".data⟩] := by decide

/-- Claim C5, counterexample: the malformed line `"0041 ;"` (no property
token) absorbs the next line's hex start as its property token, because
`\s*` in the pattern crosses the newline; the valid line `"0050 ; Foo"`
loses its record and the `Foo` table its code point. -/
theorem c5_counterexample :
    parseRecords "0041 ;\n0050 ; Foo\n".data = [⟨"0041".data, none, "0050".data⟩]
      ∧ parseRecords "0050 ; Foo\n".data = [⟨"0050".data, none, "Foo".data⟩]
      ∧ buildCodePoints (parseRecords "0041 ;\n0050 ; Foo\n".data) "Foo".data = []
      ∧ buildCodePoints (parseRecords "0050 ; Foo\n".data) "Foo".data = [0x50] := by decide

/-- Claim C10: a parsed record whose range end is strictly below its range
start contributes no code points — the loop body never executes — and the
run continues normally. -/
theorem c10_empty_range (s e : Nat) (h : e < s) : expandRange s e = [] := by
  unfold expandRange
  have h0 : e + 1 - s = 0 := by omega
  rw [h0]
  rfl

/-- Witness for C10 at `s = 1`, `e = 0`. -/
theorem c10_empty_range_witness : (0 : Nat) < 1 ∧ expandRange 1 0 = [] :=
  ⟨by decide, c10_empty_range 1 0 (by decide)⟩

/-- Claim C7: the pipeline stages are modelled by pure functions of the
input text, so byte-identical inputs yield byte-identical generated
documents (before the external `rustfmt` step). -/
theorem c7_deterministic (t₁ t₂ : List Char) (h : t₁ = t₂) :
    buildRustFile t₁ = buildRustFile t₂ := by rw [h]

/-- Witness for C7 on a concrete input. -/
theorem c7_deterministic_witness :
    "0041 ; Pattern_Syntax\n".data = "0041 ; Pattern_Syntax\n".data
      ∧ buildRustFile "0041 ; Pattern_Syntax\n".data
          = buildRustFile "0041 ; Pattern_Syntax\n".data :=
  ⟨rfl, c7_deterministic _ _ rfl⟩

/-- Claim C9: for every input text the generated document is the fixed
header comment followed by exactly one serialized table declaration per
configured TargetPropertySpec, in configuration order, separated by blank
lines. -/
theorem c9_document_structure (text : List Char) :
    buildRustFile text
        = OUTPUT_FILE_DOC_COMMENT.data ++ '\n' :: '\n' ::
            joinSep ['\n', '\n'] (TARGET_PROPERTIES.map
              (fun pr => rustVariable pr.2.data (buildCodePoints (parseRecords text) pr.1.data)))
      ∧ (TARGET_PROPERTIES.map
            (fun pr => rustVariable pr.2.data (buildCodePoints (parseRecords text) pr.1.data))).length
          = TARGET_PROPERTIES.length :=
  ⟨rfl, by simp⟩

/-! Disjointness of ranges, and concatenated expansion. -/

/-- Two inclusive code-point ranges overlap nowhere. -/
def RangeDisj (p q : Nat × Nat) : Prop :=
  ∀ c : Nat, ¬ (p.1 ≤ c ∧ c ≤ p.2 ∧ q.1 ≤ c ∧ c ≤ q.2)

/-- The concatenation of the expansions of a list of ranges, in order. -/
def expandAll : List (Nat × Nat) → List Nat
  | [] => []
  | se :: rest => expandRange se.1 se.2 ++ expandAll rest

theorem foldl_eq_expandAll (L : List (Nat × Nat)) : ∀ acc : List Nat,
    L.foldl (fun codePoints se => codePoints ++ expandRange se.1 se.2) acc
      = acc ++ expandAll L := by
  induction L with
  | nil => intro acc; simp [expandAll]
  | cons se rest ih => intro acc; simp [expandAll, ih]

theorem mem_expandAll (L : List (Nat × Nat)) : ∀ c : Nat,
    c ∈ expandAll L ↔ ∃ se ∈ L, se.1 ≤ c ∧ c ≤ se.2 := by
  induction L with
  | nil => intro c; simp [expandAll]
  | cons se rest ih => intro c; simp [expandAll, ih, mem_expandRange]

theorem expandAux_nodup (n : Nat) : ∀ s : Nat, (expandAux n s).Nodup := by
  induction n with
  | zero => intro s; exact List.nodup_nil
  | succ n ih =>
    intro s
    rw [expandAux]
    refine List.nodup_cons.mpr ⟨?_, ih (s + 1)⟩
    intro hmem
    have := (mem_expandAux n (s + 1) s).mp hmem
    omega

theorem expandAll_nodup (L : List (Nat × Nat)) (hpw : L.Pairwise RangeDisj) :
    (expandAll L).Nodup := by
  induction L with
  | nil => exact List.nodup_nil
  | cons se rest ih =>
    rw [List.pairwise_cons] at hpw
    rw [expandAll]
    refine List.Nodup.append (expandAux_nodup _ _) (ih hpw.2) ?_
    intro c hc1 hc2
    have h1 := (mem_expandRange se.1 se.2 c).mp hc1
    rcases (mem_expandAll rest c).mp hc2 with ⟨se2, hse2, h2⟩
    exact (hpw.1 se2 hse2) c ⟨h1.1, h1.2, h2.1, h2.2⟩

theorem sorted_lt_of_sorted_le_nodup (l : List Nat)
    (h1 : List.Sorted (· ≤ ·) l) (h2 : l.Nodup) : List.Sorted (· < ·) l := by
  induction l with
  | nil => exact List.sorted_nil
  | cons a t ih =>
    rw [List.sorted_cons] at h1 ⊢
    rw [List.nodup_cons] at h2
    refine ⟨fun b hb => lt_of_le_of_ne (h1.1 b hb) ?_, ih h1.2 h2.2⟩
    intro he; exact h2.1 (he ▸ hb)

/-- Claim C3: for a configured target property, if the parsed records for
that property have pairwise non-overlapping ranges, the produced table is
strictly increasing (no duplicates). -/
theorem c3_strictly_increasing (text : List Char) (pr : String × String)
    (_hpr : pr ∈ TARGET_PROPERTIES)
    (hdisj : (rangesOf (parseRecords text) pr.1.data).Pairwise RangeDisj) :
    List.Sorted (· < ·) (buildCodePoints (parseRecords text) pr.1.data) := by
  unfold buildCodePoints sortCps
  rw [foldl_eq_expandAll]
  simp only [List.nil_append]
  exact sorted_lt_of_sorted_le_nodup _ (List.sorted_insertionSort _ _)
    ((List.perm_insertionSort _ _).symm.nodup (expandAll_nodup _ hdisj))

/-- Witness for C3 on two disjoint `Pattern_Syntax` ranges. -/
theorem c3_strictly_increasing_witness :
    (("Pattern_Syntax", "PATTERN_SYNTAX") ∈ TARGET_PROPERTIES)
      ∧ (rangesOf (parseRecords "0041..0043 ; Pattern_Syntax\n0050 ; Pattern_Syntax\n".data)
          ("Pattern_Syntax", "PATTERN_SYNTAX").1.data).Pairwise RangeDisj
      ∧ List.Sorted (· < ·)
          (buildCodePoints (parseRecords "0041..0043 ; Pattern_Syntax\n0050 ; Pattern_Syntax\n".data)
            ("Pattern_Syntax", "PATTERN_SYNTAX").1.data) := by
  have hr : rangesOf (parseRecords "0041..0043 ; Pattern_Syntax\n0050 ; Pattern_Syntax\n".data)
      ("Pattern_Syntax", "PATTERN_SYNTAX").1.data = [(65, 67), (80, 80)] := by decide
  have hdisj : (rangesOf (parseRecords "0041..0043 ; Pattern_Syntax\n0050 ; Pattern_Syntax\n".data)
      ("Pattern_Syntax", "PATTERN_SYNTAX").1.data).Pairwise RangeDisj := by
    rw [hr]
    simp only [List.pairwise_cons, List.mem_singleton, List.not_mem_nil, false_implies,
      implies_true, List.Pairwise.nil, and_true, RangeDisj]
    intro q hq c
    subst hq
    omega
  exact ⟨by decide, hdisj, c3_strictly_increasing _ _ (by decide) hdisj⟩

/-- Claim C6: a target spec whose property name matches no parsed record
yields the declaration of an empty table, and no failure occurs. -/
theorem c6_missing_property (text : List Char) (propertyName rustTableName : List Char)
    (h : ∀ r ∈ parseRecords text, r.property ≠ propertyName) :
    rustVariable rustTableName (buildCodePoints (parseRecords text) propertyName)
      = "pub(crate) static ".data ++ rustTableName ++ ": &[char] = &[];".data := by
  have hf : (parseRecords text).filter (fun r => r.property == propertyName) = [] := by
    rw [List.filter_eq_nil_iff]
    intro r hr
    simp only [beq_iff_eq]
    exact h r hr
  have hb : buildCodePoints (parseRecords text) propertyName = [] := by
    unfold buildCodePoints rangesOf
    rw [hf]
    rfl
  rw [hb]
  unfold rustVariable
  have htail : ": &[char] = ".data ++ (rustTable ([] : List Nat) ++ [';'])
      = ": &[char] = &[];".data := by decide
  rw [← htail]
  simp [List.append_assoc]

/-- Witness for C6: `Bar` never occurs in the input. -/
theorem c6_missing_property_witness :
    (∀ r ∈ parseRecords "0041 ; Foo\n".data, r.property ≠ "Bar".data)
      ∧ rustVariable "BAR".data (buildCodePoints (parseRecords "0041 ; Foo\n".data) "Bar".data)
          = "pub(crate) static ".data ++ "BAR".data ++ ": &[char] = &[];".data :=
  ⟨by decide, c6_missing_property _ _ _ (by decide)⟩

/-! Character-set facts for the rendered hex literals. -/

theorem hexChar_mem : ∀ m : Nat, m < 16 → hexChar m ∈ "0123456789abcdef".data := by decide

theorem toHexAux_subset (f : Nat) : ∀ n : Nat, ∀ c ∈ toHexAux f n,
    c ∈ "0123456789abcdef".data := by
  induction f with
  | zero => intro n c hc; simp [toHexAux] at hc
  | succ f ih =>
    intro n c hc
    rw [toHexAux] at hc
    by_cases h0 : n = 0
    · simp [h0] at hc
    · rw [if_neg h0] at hc
      rcases List.mem_append.mp hc with h | h
      · exact ih _ c h
      · obtain rfl := List.mem_singleton.mp h
        exact hexChar_mem _ (Nat.mod_lt _ (by omega))

theorem toHexString_subset (n : Nat) : ∀ c ∈ toHexString n,
    c ∈ "0123456789abcdef".data := by
  intro c hc
  unfold toHexString at hc
  split at hc
  · obtain rfl := List.mem_singleton.mp hc
    decide
  · exact toHexAux_subset n n c hc

theorem hexPadded_subset (cp : Nat) : ∀ c ∈ hexPadded cp,
    c ∈ "0123456789ABCDEF".data := by
  intro c hc
  unfold hexPadded at hc
  rcases List.mem_map.mp hc with ⟨d, hd, rfl⟩
  have hdl : d ∈ "0123456789abcdef".data := by
    unfold padStart at hd
    rcases List.mem_append.mp hd with h | h
    · obtain rfl := List.eq_of_mem_replicate h
      decide
    · exact toHexString_subset _ d h
  have hup : ∀ d ∈ "0123456789abcdef".data, charUpper d ∈ "0123456789ABCDEF".data := by decide
  exact hup d hdl

theorem hexPadded_length (cp : Nat) : 4 ≤ (hexPadded cp).length := by
  unfold hexPadded padStart
  rw [List.length_map, List.length_append, List.length_replicate]
  omega

/-- Claim C8: in every generated table declaration the code points appear in
ascending order, and every literal is rendered as `'\u{...}'` around at
least four hex digits that are all uppercase (or decimal) hex digits. -/
theorem c8_table_rendering (text : List Char) (pr : String × String)
    (_hpr : pr ∈ TARGET_PROPERTIES) :
    List.Sorted (· ≤ ·) (buildCodePoints (parseRecords text) pr.1.data)
      ∧ ∀ cp ∈ buildCodePoints (parseRecords text) pr.1.data,
          renderCp cp = qc :: bsc :: 'u' :: lbc :: (hexPadded cp ++ [rbc, qc])
            ∧ 4 ≤ (hexPadded cp).length
            ∧ ∀ c ∈ hexPadded cp, c ∈ "0123456789ABCDEF".data := by
  refine ⟨?_, ?_⟩
  · unfold buildCodePoints sortCps
    exact List.sorted_insertionSort _ _
  · intro cp _
    exact ⟨rfl, hexPadded_length cp, fun c hc => hexPadded_subset cp c hc⟩

/-- Witness for C8 on the `Pattern_Syntax` spec. -/
theorem c8_table_rendering_witness :
    (("Pattern_Syntax", "PATTERN_SYNTAX") ∈ TARGET_PROPERTIES)
      ∧ (List.Sorted (· ≤ ·)
          (buildCodePoints (parseRecords "0041..0043 ; Pattern_Syntax\n".data)
            ("Pattern_Syntax", "PATTERN_SYNTAX").1.data)
        ∧ ∀ cp ∈ buildCodePoints (parseRecords "0041..0043 ; Pattern_Syntax\n".data)
            ("Pattern_Syntax", "PATTERN_SYNTAX").1.data,
            renderCp cp = qc :: bsc :: 'u' :: lbc :: (hexPadded cp ++ [rbc, qc])
              ∧ 4 ≤ (hexPadded cp).length
              ∧ ∀ c ∈ hexPadded cp, c ∈ "0123456789ABCDEF".data) :=
  ⟨by decide, c8_table_rendering _ _ (by decide)⟩

/-! Generic facts about `takeWhile`, `dropWhile`, `take` and `drop`. -/

theorem take_one_cons (a : Char) (l : List Char) : (a :: l).take 1 = [a] := rfl

theorem drop_one_cons (a : Char) (l : List Char) : (a :: l).drop 1 = l := rfl

theorem dropWhile_length_le (p : Char → Bool) : ∀ l : List Char,
    (l.dropWhile p).length ≤ l.length := by
  intro l
  induction l with
  | nil => simp [List.dropWhile]
  | cons a t ih =>
    by_cases hp : p a = true
    · simp only [List.dropWhile, hp]
      exact Nat.le_trans ih (Nat.le_succ _)
    · rw [Bool.not_eq_true] at hp
      simp [List.dropWhile, hp]

theorem takeWhile_append_left (p : Char → Bool) : ∀ l₁ l₂ : List Char,
    (∀ c ∈ l₁, p c = true) → (∀ c, l₂.head? = some c → p c = false) →
    (l₁ ++ l₂).takeWhile p = l₁ := by
  intro l₁
  induction l₁ with
  | nil =>
    intro l₂ _ h2
    cases l₂ with
    | nil => rfl
    | cons b t => simp [List.takeWhile, h2 b rfl]
  | cons a t ih =>
    intro l₂ h1 h2
    rw [List.cons_append]
    simp only [List.takeWhile, h1 a (List.mem_cons_self a t)]
    rw [ih l₂ (fun c hc => h1 c (List.mem_cons_of_mem a hc)) h2]

theorem dropWhile_append_left (p : Char → Bool) : ∀ l₁ l₂ : List Char,
    (∀ c ∈ l₁, p c = true) → (∀ c, l₂.head? = some c → p c = false) →
    (l₁ ++ l₂).dropWhile p = l₂ := by
  intro l₁
  induction l₁ with
  | nil =>
    intro l₂ _ h2
    cases l₂ with
    | nil => rfl
    | cons b t => simp [List.dropWhile, h2 b rfl]
  | cons a t ih =>
    intro l₂ h1 h2
    rw [List.cons_append]
    simp only [List.dropWhile, h1 a (List.mem_cons_self a t)]
    exact ih l₂ (fun c hc => h1 c (List.mem_cons_of_mem a hc)) h2

/-! Facts about the character classes. -/

theorem isJsSpace_not_hex {c : Char} (h : isJsSpace c = true) : isHexDigit c = false := by
  rw [Bool.eq_false_iff]
  intro hh
  unfold isJsSpace at h
  unfold isHexDigit at hh
  simp only [Bool.or_eq_true, Bool.and_eq_true, decide_eq_true_eq, beq_iff_eq] at h hh
  omega

theorem isJsSpace_ne_dot {c : Char} (h : isJsSpace c = true) : ¬ c = '.' := by
  intro he
  rw [he] at h
  exact absurd h (by decide)

/-! Length bounds for the matcher, and fuel-independence of the scanner. -/

theorem matchTail_rest_length (s : List Char) (e : Option (List Char)) (r : List Char)
    (rec : RawRecord) (rest : List Char) (h : matchTail s e r = some (rec, rest)) :
    rest.length < r.length := by
  simp only [matchTail] at h
  split at h
  next hcond =>
    split at h
    · simp at h
    next =>
      rw [Option.some.injEq, Prod.mk.injEq] at h
      obtain ⟨-, h2⟩ := h
      subst h2
      have hne : r.dropWhile isJsSpace ≠ [] := by
        intro hE; rw [hE] at hcond; simp at hcond
      have a1 := dropWhile_length_le isJsSpace r
      have a2 := dropWhile_length_le isJsSpace ((r.dropWhile isJsSpace).drop 1)
      have a3 := dropWhile_length_le (fun c => !(isJsSpace c))
        (((r.dropWhile isJsSpace).drop 1).dropWhile isJsSpace)
      have a4 : ((r.dropWhile isJsSpace).drop 1).length = (r.dropWhile isJsSpace).length - 1 :=
        List.length_drop 1 (r.dropWhile isJsSpace)
      have a5 : 0 < (r.dropWhile isJsSpace).length := List.length_pos.mpr hne
      omega
  next => simp at h

theorem matchCore_rest_length (cs : List Char) (rec : RawRecord) (rest : List Char)
    (h : matchCore cs = some (rec, rest)) : rest.length < cs.length := by
  simp only [matchCore] at h
  split at h
  · simp at h
  next =>
    split at h
    next =>
      split at h
      · simp at h
      next =>
        have hlt := matchTail_rest_length _ _ _ _ _ h
        have b1 := dropWhile_length_le isHexDigit cs
        have b2 := dropWhile_length_le isHexDigit ((cs.dropWhile isHexDigit).drop 2)
        have b3 : ((cs.dropWhile isHexDigit).drop 2).length
            = (cs.dropWhile isHexDigit).length - 2 :=
          List.length_drop 2 (cs.dropWhile isHexDigit)
        omega
    next =>
      split at h
      · simp at h
      next =>
        have hlt := matchTail_rest_length _ _ _ _ _ h
        have b1 := dropWhile_length_le isHexDigit cs
        omega

theorem scanAux_cons_ne (fuel : Nat) {c : Char} (cs : List Char) (hc : ¬ c = '\n') :
    scanAux (fuel + 1) (c :: cs) = scanAux fuel cs := by
  simp [scanAux, hc]

theorem scanAux_cons_newline_none (fuel : Nat) (cs : List Char)
    (hm : matchCore cs = none) :
    scanAux (fuel + 1) ('\n' :: cs) = scanAux fuel cs := by
  simp [scanAux, hm]

theorem scanAux_cons_newline_some (fuel : Nat) (cs : List Char) (r : RawRecord)
    (rest : List Char) (hm : matchCore cs = some (r, rest)) :
    scanAux (fuel + 1) ('\n' :: cs) = r :: scanAux fuel rest := by
  simp [scanAux, hm]

theorem scan_cons_ne {c : Char} (cs : List Char) (hc : ¬ c = '\n') :
    scan (c :: cs) = scan cs := by
  unfold scan
  rw [List.length_cons]
  exact scanAux_cons_ne _ _ hc

theorem scanAux_stable : ∀ fuel : Nat, ∀ cs : List Char, cs.length ≤ fuel →
    scanAux fuel cs = scan cs := by
  intro fuel
  induction fuel using Nat.strong_induction_on with
  | _ fuel ih =>
    intro cs hlen
    cases fuel with
    | zero =>
      obtain rfl : cs = [] := List.length_eq_zero.mp (Nat.le_zero.mp hlen)
      rfl
    | succ f =>
      cases cs with
      | nil => rfl
      | cons c cs =>
        rw [List.length_cons] at hlen
        by_cases hc : c = '\n'
        · subst hc
          cases hm : matchCore cs with
          | none =>
            rw [scanAux_cons_newline_none f cs hm]
            unfold scan
            rw [List.length_cons, scanAux_cons_newline_none cs.length cs hm]
            rw [ih f (Nat.lt_succ_self f) cs (by omega)]
            rfl
          | some rr =>
            obtain ⟨r, rest⟩ := rr
            have hrlen := matchCore_rest_length cs r rest hm
            rw [scanAux_cons_newline_some f cs r rest hm]
            unfold scan
            rw [List.length_cons, scanAux_cons_newline_some cs.length cs r rest hm]
            rw [ih f (Nat.lt_succ_self f) rest (by omega)]
            rw [ih cs.length (by omega) rest (by omega)]
        · rw [scanAux_cons_ne f cs hc, scan_cons_ne cs hc]
          exact ih f (Nat.lt_succ_self f) cs (by omega)

theorem parseRecords_some (cs : List Char) (r : RawRecord) (rest : List Char)
    (hm : matchCore cs = some (r, rest)) : parseRecords cs = r :: scan rest := by
  unfold parseRecords
  simp only [hm]

theorem parseRecords_none (cs : List Char) (hm : matchCore cs = none) :
    parseRecords cs = scan cs := by
  unfold parseRecords
  simp only [hm]

theorem scan_newline (t : List Char) : scan ('\n' :: t) = parseRecords t := by
  show scanAux ('\n' :: t).length ('\n' :: t) = parseRecords t
  rw [List.length_cons]
  cases hm : matchCore t with
  | none =>
    rw [scanAux_cons_newline_none t.length t hm, parseRecords_none t hm]
    rfl
  | some rr =>
    obtain ⟨r, rest⟩ := rr
    rw [scanAux_cons_newline_some t.length t r rest hm, parseRecords_some t r rest hm]
    rw [scanAux_stable t.length rest (le_of_lt (matchCore_rest_length t r rest hm))]

theorem scan_no_newline : ∀ cs : List Char, (∀ c ∈ cs, ¬ c = '\n') → scan cs = [] := by
  intro cs
  induction cs with
  | nil => intro _; rfl
  | cons a t ih =>
    intro h
    rw [scan_cons_ne t (h a (List.mem_cons_self a t))]
    exact ih (fun c hc => h c (List.mem_cons_of_mem a hc))

theorem scan_append_no_newline : ∀ pre cs : List Char, (∀ c ∈ pre, ¬ c = '\n') →
    scan (pre ++ cs) = scan cs := by
  intro pre
  induction pre with
  | nil => intro cs _; rfl
  | cons a t ih =>
    intro cs h
    rw [List.cons_append, scan_cons_ne _ (h a (List.mem_cons_self a t))]
    exact ih cs (fun c hc => h c (List.mem_cons_of_mem a hc))

/-! Completeness of the matcher on a schematic well-formed record. -/

theorem matchTail_complete (sv : List Char) (ev : Option (List Char))
    (ws1 ws2 p trail : List Char)
    (hws1 : ∀ c ∈ ws1, isJsSpace c = true) (hws2 : ∀ c ∈ ws2, isJsSpace c = true)
    (hp : p ≠ []) (hpc : ∀ c ∈ p, isJsSpace c = false)
    (htr : ∀ c, trail.head? = some c → isJsSpace c = true) :
    matchTail sv ev (ws1 ++ ';' :: (ws2 ++ (p ++ trail))) = some (⟨sv, ev, p⟩, trail) := by
  have hphead : ∀ c : Char, (p ++ trail).head? = some c → isJsSpace c = false := by
    cases p with
    | nil => exact absurd rfl hp
    | cons a t =>
      intro c hc
      simp only [List.cons_append, List.head?_cons, Option.some.injEq] at hc
      subst hc
      exact hpc a (List.mem_cons_self a t)
  have h1 : (ws1 ++ ';' :: (ws2 ++ (p ++ trail))).dropWhile isJsSpace
      = ';' :: (ws2 ++ (p ++ trail)) :=
    dropWhile_append_left _ _ _ hws1 (by
      intro c hc
      simp only [List.head?_cons, Option.some.injEq] at hc
      subst hc
      decide)
  have h2 : (ws2 ++ (p ++ trail)).dropWhile isJsSpace = p ++ trail :=
    dropWhile_append_left _ _ _ hws2 hphead
  have h3 : (p ++ trail).takeWhile (fun c => !(isJsSpace c)) = p :=
    takeWhile_append_left _ _ _ (fun c hc => by simp [hpc c hc])
      (fun c hc => by simp [htr c hc])
  have h4 : (p ++ trail).dropWhile (fun c => !(isJsSpace c)) = trail :=
    dropWhile_append_left _ _ _ (fun c hc => by simp [hpc c hc])
      (fun c hc => by simp [htr c hc])
  simp only [matchTail]
  rw [h1, take_one_cons, drop_one_cons]
  rw [if_pos rfl]
  rw [h2, h3, h4]
  rw [if_neg hp]

theorem matchCore_complete (hs : List Char) (esOpt : Option (List Char))
    (ws1 ws2 p trail : List Char)
    (hhs : hs ≠ []) (hhsc : ∀ c ∈ hs, isHexDigit c = true)
    (hes : match esOpt with
      | none => True
      | some es => es ≠ [] ∧ ∀ c ∈ es, isHexDigit c = true)
    (hws1 : ∀ c ∈ ws1, isJsSpace c = true) (hws2 : ∀ c ∈ ws2, isJsSpace c = true)
    (hp : p ≠ []) (hpc : ∀ c ∈ p, isJsSpace c = false)
    (htr : ∀ c, trail.head? = some c → isJsSpace c = true) :
    matchCore (hs ++ (rangePart esOpt ++ (ws1 ++ ';' :: (ws2 ++ (p ++ trail)))))
      = some (⟨hs, esOpt, p⟩, trail) := by
  have hREST : ∀ c : Char, (ws1 ++ ';' :: (ws2 ++ (p ++ trail))).head? = some c →
      isHexDigit c = false ∧ ¬ c = '.' := by
    cases ws1 with
    | nil =>
      intro c hc
      simp only [List.nil_append, List.head?_cons, Option.some.injEq] at hc
      subst hc
      exact ⟨by decide, by decide⟩
    | cons a t =>
      intro c hc
      simp only [List.cons_append, List.head?_cons, Option.some.injEq] at hc
      subst hc
      exact ⟨isJsSpace_not_hex (hws1 a (List.mem_cons_self a t)),
        isJsSpace_ne_dot (hws1 a (List.mem_cons_self a t))⟩
  obtain ⟨b, R, hbR⟩ : ∃ b R, ws1 ++ ';' :: (ws2 ++ (p ++ trail)) = b :: R := by
    cases ws1 with
    | nil => exact ⟨';', ws2 ++ (p ++ trail), rfl⟩
    | cons a t => exact ⟨a, t ++ ';' :: (ws2 ++ (p ++ trail)), rfl⟩
  have hb : isHexDigit b = false ∧ ¬ b = '.' := hREST b (by rw [hbR]; rfl)
  cases esOpt with
  | none =>
    simp only [rangePart, List.nil_append]
    have h1 : (hs ++ (ws1 ++ ';' :: (ws2 ++ (p ++ trail)))).takeWhile isHexDigit = hs :=
      takeWhile_append_left _ _ _ hhsc (fun c hc => (hREST c hc).1)
    have h2 : (hs ++ (ws1 ++ ';' :: (ws2 ++ (p ++ trail)))).dropWhile isHexDigit
        = ws1 ++ ';' :: (ws2 ++ (p ++ trail)) :=
      dropWhile_append_left _ _ _ hhsc (fun c hc => (hREST c hc).1)
    simp only [matchCore]
    rw [h1, h2, if_neg hhs, hbR]
    have hne2 : ¬ ((b :: R).take 2 = ['.', '.']) := by
      intro hcontra
      have ht2 : (b :: R).take 2 = b :: R.take 1 := rfl
      rw [ht2] at hcontra
      simp only [List.cons.injEq] at hcontra
      exact hb.2 hcontra.1
    have hne1 : ¬ ((b :: R).take 1 = ['.']) := by
      rw [take_one_cons]
      intro hcontra
      simp only [List.cons.injEq] at hcontra
      exact hb.2 hcontra.1
    rw [if_neg hne2, if_neg hne1, ← hbR]
    exact matchTail_complete hs none ws1 ws2 p trail hws1 hws2 hp hpc htr
  | some es =>
    obtain ⟨hesne, hesc⟩ := hes
    simp only [rangePart, List.cons_append]
    have h1 : (hs ++ '.' :: '.' :: (es ++ (ws1 ++ ';' :: (ws2 ++ (p ++ trail))))).takeWhile
        isHexDigit = hs :=
      takeWhile_append_left _ _ _ hhsc (by
        intro c hc
        simp only [List.head?_cons, Option.some.injEq] at hc
        subst hc
        decide)
    have h2 : (hs ++ '.' :: '.' :: (es ++ (ws1 ++ ';' :: (ws2 ++ (p ++ trail))))).dropWhile
        isHexDigit = '.' :: '.' :: (es ++ (ws1 ++ ';' :: (ws2 ++ (p ++ trail)))) :=
      dropWhile_append_left _ _ _ hhsc (by
        intro c hc
        simp only [List.head?_cons, Option.some.injEq] at hc
        subst hc
        decide)
    have ht2 : ('.' :: '.' :: (es ++ (ws1 ++ ';' :: (ws2 ++ (p ++ trail))))).take 2
        = ['.', '.'] := rfl
    have hd2 : ('.' :: '.' :: (es ++ (ws1 ++ ';' :: (ws2 ++ (p ++ trail))))).drop 2
        = es ++ (ws1 ++ ';' :: (ws2 ++ (p ++ trail))) := rfl
    have h3 : (es ++ (ws1 ++ ';' :: (ws2 ++ (p ++ trail)))).takeWhile isHexDigit = es :=
      takeWhile_append_left _ _ _ hesc (fun c hc => (hREST c hc).1)
    have h4 : (es ++ (ws1 ++ ';' :: (ws2 ++ (p ++ trail)))).dropWhile isHexDigit
        = ws1 ++ ';' :: (ws2 ++ (p ++ trail)) :=
      dropWhile_append_left _ _ _ hesc (fun c hc => (hREST c hc).1)
    simp only [matchCore]
    rw [h1, h2, if_neg hhs, ht2, if_pos rfl, hd2, h3, h4, if_neg hesne]
    exact matchTail_complete hs (some es) ws1 ws2 p trail hws1 hws2 hp hpc htr

/-- Claim C4, amended: for a line of the form
`<hex-start>[..<hex-end>]? ; <property-token>` with no leading whitespace
(the record must begin at the start of its line), trailing whitespace and an
optional trailing `#`-comment after the token are tolerated and ignored: the
decorated line parses to the same PropertyRecord as the un-decorated one
(take `trail = []` for the latter).  Leading whitespace is not tolerated:
such a line yields no record at all (see the counterexample). -/
theorem c4_line_decoration_amended (hs : List Char) (esOpt : Option (List Char))
    (ws1 ws2 p trail : List Char)
    (hhs : hs ≠ []) (hhsc : ∀ c ∈ hs, isHexDigit c = true)
    (hes : match esOpt with
      | none => True
      | some es => es ≠ [] ∧ ∀ c ∈ es, isHexDigit c = true)
    (hws1 : ∀ c ∈ ws1, isJsSpace c = true) (hws2 : ∀ c ∈ ws2, isJsSpace c = true)
    (hp : p ≠ []) (hpc : ∀ c ∈ p, isJsSpace c = false)
    (htr : ∀ c, trail.head? = some c → isJsSpace c = true)
    (htrn : ∀ c ∈ trail, ¬ c = '\n') :
    parseRecords (hs ++ (rangePart esOpt ++ (ws1 ++ ';' :: (ws2 ++ (p ++ trail)))))
      = [⟨hs, esOpt, p⟩] := by
  rw [parseRecords_some _ _ _
    (matchCore_complete hs esOpt ws1 ws2 p trail hhs hhsc hes hws1 hws2 hp hpc htr)]
  rw [scan_no_newline trail htrn]

/-- Witness for the amended C4: the decorated line
`0041..0043 ; Foo # comment` parses to the record `(0041, 0043, Foo)`. -/
theorem c4_line_decoration_amended_witness :
    parseRecords ("0041".data ++ (rangePart (some "0043".data) ++
        (" ".data ++ ';' :: (" ".data ++ ("Foo".data ++ " # comment".data)))))
      = [⟨"0041".data, some "0043".data, "Foo".data⟩] :=
  c4_line_decoration_amended "0041".data (some "0043".data) " ".data " ".data
    "Foo".data " # comment".data (by decide) (by decide) (by decide) (by decide)
    (by decide) (by decide) (by decide)
    (by
      intro c hc
      have h0 : (" # comment".data.head?) = some ' ' := rfl
      rw [h0, Option.some.injEq] at hc
      subst hc
      decide)
    (by decide)

/-- Claim C5, amended: blank lines and full-line `#`-comment lines
interleaved with valid records contribute nothing and leave the parsed
records unchanged; but a malformed row need not be inert, because `\s*` in
the record pattern crosses line boundaries (see the counterexample, where
`"0041 ;"` captures the next line's hex start as its property token).  The
first two conjuncts discharge a noise prefix in general; the third is the
end-to-end scenario with interleaved noise. -/
theorem c5_noise_lines_amended :
    (∀ t : List Char, parseRecords ('\n' :: t) = parseRecords t)
      ∧ (∀ body t : List Char, (∀ c ∈ body, ¬ c = '\n') →
          parseRecords (('#' :: body) ++ '\n' :: t) = parseRecords t)
      ∧ parseRecords "0041 ; Foo\n# comment\n\n0050 ; Foo\n".data
          = [⟨"0041".data, none, "Foo".data⟩, ⟨"0050".data, none, "Foo".data⟩] := by
  have hblank : ∀ t : List Char, parseRecords ('\n' :: t) = parseRecords t := by
    intro t
    have h0 : ('\n' :: t).takeWhile isHexDigit = [] := rfl
    have hm : matchCore ('\n' :: t) = none := by
      simp only [matchCore]
      rw [h0, if_pos rfl]
    rw [parseRecords_none _ hm]
    exact scan_newline t
  refine ⟨hblank, ?_, by decide⟩
  intro body t hb
  have h0 : (('#' :: body) ++ '\n' :: t).takeWhile isHexDigit = [] := rfl
  have hm : matchCore (('#' :: body) ++ '\n' :: t) = none := by
    simp only [matchCore]
    rw [h0, if_pos rfl]
  rw [parseRecords_none _ hm, List.cons_append]
  rw [scan_cons_ne _ (by decide)]
  rw [scan_append_no_newline body _ hb]
  exact scan_newline t

/-- Witness for the amended C5: a comment line before a valid record leaves
its parse unchanged. -/
theorem c5_noise_lines_amended_witness :
    parseRecords (('#' :: " comment".data) ++ '\n' :: "0041 ; Foo".data)
      = parseRecords "0041 ; Foo".data :=
  c5_noise_lines_amended.2.1 " comment".data "0041 ; Foo".data (by decide)

end BuildTables

